import Mathlib

/-!
Verification of the black-hole simulator (src/src/main.rs) against its
specification.

The Rust program is a Bevy app; its physics core works on `f32` vectors.
We shallowly embed that core over the real numbers: `Vec2` is a pair of
reals, `Real.sqrt` stands for the `f32` square root used by
`Vec3::length` and `f32::sqrt`, and the Rust float remainder `%`
(truncated remainder, sign of the dividend) is embedded as `rustRem`.
All `translation` values in the program keep `z = 0`, so positions are
embedded as 2-vectors.  Randomness (`rand::random::<f32>()`, which draws
uniformly from the half-open interval from 0 to 1) is embedded by
passing the drawn values as explicit parameters.
-/

namespace BlackHoleSim

/-- 2D vector of reals, embedding Bevy `Vec2` (and `Vec3` with `z = 0`). -/
structure Vec2 where
  x : ℝ
  y : ℝ


namespace Vec2

@[ext] theorem ext2 {a b : Vec2} (hx : a.x = b.x) (hy : a.y = b.y) : a = b := by
  cases a; cases b; simp_all

instance : Add Vec2 := ⟨fun a b => ⟨a.x + b.x, a.y + b.y⟩⟩
instance : Sub Vec2 := ⟨fun a b => ⟨a.x - b.x, a.y - b.y⟩⟩

/-- Scalar multiplication, embedding `Vec2 * f32`. -/
instance : SMul ℝ Vec2 := ⟨fun c v => ⟨c * v.x, c * v.y⟩⟩

@[simp] theorem add_def (a b : Vec2) : a + b = ⟨a.x + b.x, a.y + b.y⟩ := rfl
@[simp] theorem sub_def (a b : Vec2) : a - b = ⟨a.x - b.x, a.y - b.y⟩ := rfl
@[simp] theorem smul_def (c : ℝ) (v : Vec2) : c • v = ⟨c * v.x, c * v.y⟩ := rfl

/-- Euclidean length, embedding `Vec3::length` on vectors with `z = 0`. -/
noncomputable def length (v : Vec2) : ℝ := Real.sqrt (v.x ^ 2 + v.y ^ 2)

/-- Normalization, embedding `Vec3::normalize` (division by the length). -/
noncomputable def normalize (v : Vec2) : Vec2 := (1 / v.length) • v

theorem length_nonneg (v : Vec2) : 0 ≤ v.length := Real.sqrt_nonneg _

theorem length_smul (c : ℝ) (v : Vec2) : (c • v).length = |c| * v.length := by
  unfold length
  simp only [smul_def]
  rw [show (c * v.x) ^ 2 + (c * v.y) ^ 2 = c ^ 2 * (v.x ^ 2 + v.y ^ 2) by ring,
    Real.sqrt_mul (sq_nonneg c), Real.sqrt_sq_eq_abs]

theorem length_pos_of_ne_zero {v : Vec2} (h : v.length ≠ 0) : 0 < v.length :=
  lt_of_le_of_ne v.length_nonneg (Ne.symm h)

theorem length_normalize {v : Vec2} (h : v.length ≠ 0) : v.normalize.length = 1 := by
  have hl : 0 < v.length := length_pos_of_ne_zero h
  unfold normalize
  rw [length_smul, abs_of_nonneg (le_of_lt (one_div_pos.mpr hl))]
  field_simp

end Vec2

/-- Rust truncation toward zero on reals (`f32` casts and `%` truncate). -/
noncomputable def rtrunc (x : ℝ) : ℤ := if 0 ≤ x then ⌊x⌋ else ⌈x⌉

/-- The Rust float remainder `a % b`: `a - b * trunc (a / b)`. -/
noncomputable def rustRem (a b : ℝ) : ℝ := a - b * rtrunc (a / b)

theorem rustRem_mem_Ico {a b : ℝ} (ha : 0 ≤ a) (hb : 0 < b) :
    0 ≤ rustRem a b ∧ rustRem a b < b := by
  have hdiv : 0 ≤ a / b := div_nonneg ha hb.le
  unfold rustRem rtrunc
  rw [if_pos hdiv]
  constructor
  · have h1 : (⌊a / b⌋ : ℝ) ≤ a / b := Int.floor_le _
    have h2 : b * (⌊a / b⌋ : ℝ) ≤ b * (a / b) := by
      exact mul_le_mul_of_nonneg_left h1 hb.le
    have h3 : b * (a / b) = a := by field_simp
    linarith
  · have h1 : a / b < (⌊a / b⌋ : ℝ) + 1 := Int.lt_floor_add_one _
    have h2 : b * (a / b) < b * ((⌊a / b⌋ : ℝ) + 1) := by
      exact mul_lt_mul_of_pos_left h1 hb
    have h3 : b * (a / b) = a := by field_simp
    nlinarith

/-- The `Particle` component: velocity and mass (position lives in the
entity transform; here carried in the same record). -/
structure Particle where
  pos : Vec2
  velocity : Vec2
  mass : ℝ


/-- The `BlackHole` component: mass and event horizon (position lives in
the entity transform; here carried in the same record). -/
structure BlackHole where
  pos : Vec2
  mass : ℝ
  eventHorizon : ℝ


@[ext] theorem BlackHole.ext3 {a b : BlackHole} (hp : a.pos = b.pos)
    (hm : a.mass = b.mass) (he : a.eventHorizon = b.eventHorizon) : a = b := by
  cases a; cases b; simp_all

@[ext] theorem Particle.ext_fields {a b : Particle} (hp : a.pos = b.pos)
    (hv : a.velocity = b.velocity) (hm : a.mass = b.mass) : a = b := by
  cases a; cases b; simp_all

/-- One draw of the four random values consumed by a consumption event in
`update_particles`: two position draws and two velocity draws, each from
`rand::random::<f32>()`. -/
structure Draw where
  rx : ℝ
  ry : ℝ
  rvx : ℝ
  rvy : ℝ


/-- The inner loop body of `update_particles` (main.rs lines 237-257):
for one black hole, either consume the particle (respawn at a random
position with a random velocity) when `distance < event_horizon`, or add
the gravitational pull to its velocity. -/
noncomputable def applyBlackHole (width height dt : ℝ) (bh : BlackHole)
    (draw : Draw) (p : Particle) : Particle :=
  let direction := bh.pos - p.pos
  let distance := direction.length
  if distance < bh.eventHorizon then
    { p with
      pos := ⟨draw.rx * width, draw.ry * height⟩
      velocity := ⟨draw.rvx * 2 - 1, draw.rvy * 2 - 1⟩ }
  else
    let force := bh.mass * p.mass / (distance * distance)
    { p with velocity := p.velocity + (force * dt) • direction.normalize }

/-- The black-hole fold of `update_particles`: the particle passes
through every black hole in order, consuming one random draw per black
hole position in the list. -/
noncomputable def forceLoop (width height dt : ℝ)
    (bhDraws : List (BlackHole × Draw)) (p : Particle) : Particle :=
  bhDraws.foldl (fun q bd => applyBlackHole width height dt bd.1 bd.2 q) p

/-- Position integration of `update_particles` (line 260):
`translation += velocity * dt`. -/
noncomputable def integratePos (dt : ℝ) (p : Particle) : Particle :=
  { p with pos := p.pos + dt • p.velocity }

/-- Screen wrap of `update_particles` (lines 263-264):
`x = (x + width) % width`, `y = (y + height) % height`. -/
noncomputable def wrapPos (width height : ℝ) (p : Particle) : Particle :=
  { p with pos := ⟨rustRem (p.pos.x + width) width, rustRem (p.pos.y + height) height⟩ }

/-- One full `update_particles` step for one particle (lines 236-265). -/
noncomputable def stepParticle (width height dt : ℝ)
    (bhDraws : List (BlackHole × Draw)) (p : Particle) : Particle :=
  wrapPos width height (integratePos dt (forceLoop width height dt bhDraws p))

/-- The `update_particles` system (lines 204-266): returns early when
paused, otherwise steps every particle.  `dt` is the frame delta already
multiplied by the time scale (line 222); `draws` gives each particle its
random draws, one per black hole. -/
noncomputable def updateParticles (paused : Bool) (width height dt : ℝ)
    (bhs : List BlackHole) (draws : List (List Draw))
    (ps : List Particle) : List Particle :=
  if paused then ps
  else (ps.zip draws).map fun pd => stepParticle width height dt (bhs.zip pd.2) pd.1

/-- The event-horizon formula used everywhere in the program:
`(mass / 1000.0).sqrt() * 15.0` (lines 297, 347, 373). -/
noncomputable def eventHorizonOf (mass : ℝ) : ℝ := Real.sqrt (mass / 1000) * 15

/-- The event-horizon invariant stated by the spec: the horizon is the
deterministic function `eventHorizonOf` of the mass. -/
noncomputable def bhInvariant (b : BlackHole) : Prop :=
  b.eventHorizon = eventHorizonOf b.mass

/-- The mass mutation of `update_black_holes` (lines 340-345): `+= 1` while
ArrowUp is held, then `(mass - 10).max(1)` while ArrowDown is held. -/
noncomputable def adjustMass (up down : Bool) (m : ℝ) : ℝ :=
  let m1 := if up then m + 1 else m
  if down then max (m1 - 10) 1 else m1

/-- The per-black-hole body of `update_black_holes` for the selected index
(lines 333-352): optionally move to the cursor, adjust the mass, and
recompute the event horizon from the new mass. -/
noncomputable def adjustBlackHole (up down mouseLeft : Bool) (cursor : Vec2)
    (b : BlackHole) : BlackHole :=
  let b1 := if mouseLeft then { b with pos := cursor } else b
  let newMass := adjustMass up down b1.mass
  { b1 with mass := newMass, eventHorizon := eventHorizonOf newMass }

/-- The `update_black_holes` system (lines 323-355): when the cursor is
inside the window, the black hole at the selected index is adjusted and
all others are untouched; when the cursor is absent nothing happens. -/
noncomputable def updateBlackHoles (cursorPresent : Bool) (selected : ℕ)
    (up down mouseLeft : Bool) (cursor : Vec2)
    (bhs : List BlackHole) : List BlackHole :=
  if cursorPresent then
    bhs.mapIdx fun i b =>
      if i = selected then adjustBlackHole up down mouseLeft cursor b else b
  else bhs

/-- The merged black hole built in `merge_black_holes` (lines 288-311):
midpoint position, summed mass, event horizon recomputed from the sum. -/
noncomputable def mergedBlackHole (b1 b2 : BlackHole) : BlackHole :=
  { pos := (2:ℝ)⁻¹ • (b1.pos + b2.pos)
    mass := b1.mass + b2.mass
    eventHorizon := eventHorizonOf (b1.mass + b2.mass) }

instance : Inhabited Vec2 := ⟨⟨0, 0⟩⟩
instance : Inhabited BlackHole := ⟨⟨default, 0, 0⟩⟩

/-- The pair collection of `merge_black_holes` (lines 280-291): all index
pairs `i < j` whose black holes lie within distance 30 (`to_merge`). -/
noncomputable def mergePairs (bhs : List BlackHole) : List (ℕ × ℕ) :=
  (List.range bhs.length).flatMap fun i =>
    (List.range bhs.length).filterMap fun j =>
      if i < j ∧ ((bhs.getD i default).pos - (bhs.getD j default).pos).length < 30
      then some (i, j) else none

/-- The despawn/spawn phase of `merge_black_holes` (lines 293-311): both
members of every scheduled pair are despawned and one merged black hole
per pair is spawned. -/
noncomputable def mergeBlackHoles (bhs : List BlackHole) : List BlackHole :=
  let pairs := mergePairs bhs
  let dead := pairs.flatMap fun ij => [ij.1, ij.2]
  ((List.range bhs.length).filterMap fun i =>
    if i ∈ dead then none else some (bhs.getD i default))
  ++ pairs.map fun ij => mergedBlackHole (bhs.getD ij.1 default) (bhs.getD ij.2 default)

/-- A transient gravitational-wave effect: spawn position and intensity. -/
structure Wave where
  pos : Vec2
  intensity : ℝ


/-- The waves spawned by `merge_black_holes` (lines 313-319): one per
merge, at the merged position, with intensity `new_mass / 1000`. -/
noncomputable def mergeWaves (bhs : List BlackHole) : List Wave :=
  (mergePairs bhs).map fun ij =>
    { pos := (mergedBlackHole (bhs.getD ij.1 default) (bhs.getD ij.2 default)).pos
      intensity := ((bhs.getD ij.1 default).mass + (bhs.getD ij.2 default).mass) / 1000 }

/-- The Delete branch of `handle_input` (lines 402-410): when more than
one black hole exists, despawn the selected one and reduce the selected
index modulo the remaining count.  Indexing
`black_hole_entities[selected]` panics when the index is out of range,
embedded as `none`. -/
noncomputable def deleteSelected (selected : ℕ) (bhs : List BlackHole) :
    Option (List BlackHole × ℕ) :=
  if bhs.length > 1 then
    if selected < bhs.length then
      some (bhs.eraseIdx selected, selected % (bhs.length - 1))
    else none
  else some (bhs, selected)

/-- The black hole spawned by the N branch of `handle_input`
(lines 370-392): mass 1000, event horizon recomputed from it, random
position inside the window. -/
noncomputable def spawnBlackHole (rx ry width height : ℝ) : BlackHole :=
  { pos := ⟨rx * width, height - ry * height⟩
    mass := 1000
    eventHorizon := eventHorizonOf 1000 }

/-- The N branch of `handle_input` appends the new black hole. -/
noncomputable def addBlackHole (rx ry width height : ℝ)
    (bhs : List BlackHole) : List BlackHole :=
  bhs ++ [spawnBlackHole rx ry width height]

/-- The initial black hole spawned by `setup` (lines 158-169): literal
mass 1000 and literal event horizon 15, centered in the window. -/
noncomputable def initialBlackHole (width height : ℝ) : BlackHole :=
  { pos := ⟨width / 2, height / 2⟩, mass := 1000, eventHorizon := 15 }

/-- `handle_window_resize` (lines 172-185): only the camera transform is
moved to the new window center; particles are untouched. -/
noncomputable def handleWindowResize (eventWidth eventHeight : ℝ)
    (_camera : Vec2) (ps : List Particle) : Vec2 × List Particle :=
  (⟨eventWidth / 2, eventHeight / 2⟩, ps)

/-- State carried by one frame: particles, black holes, waves. -/
structure FrameState where
  particles : List Particle
  blackHoles : List BlackHole
  waves : List Wave

/-- One frame of the simulation systems relevant to the pause flag, in
the order they are listed in the `Update` schedule (line 104-113):
`update_particles` (gated on `paused`), then `update_black_holes` and
`merge_black_holes` (not gated). -/
noncomputable def stepFrame (paused : Bool) (width height dt : ℝ)
    (cursorPresent : Bool) (selected : ℕ) (up down mouseLeft : Bool)
    (cursor : Vec2) (draws : List (List Draw)) (s : FrameState) : FrameState :=
  let ps := updateParticles paused width height dt s.blackHoles draws s.particles
  let bhs1 := updateBlackHoles cursorPresent selected up down mouseLeft cursor s.blackHoles
  { particles := ps
    blackHoles := mergeBlackHoles bhs1
    waves := s.waves ++ mergeWaves bhs1 }

/-! ## Helper lemmas -/

theorem sqrt_eval {a b : ℝ} (hb : 0 ≤ b) (hab : b ^ 2 = a) : Real.sqrt a = b := by
  rw [← hab, Real.sqrt_sq hb]

theorem length_mk (a b : ℝ) : Vec2.length ⟨a, b⟩ = Real.sqrt (a ^ 2 + b ^ 2) := rfl

theorem vec_add_sub_cancel (v w : Vec2) : (v + w) - v = w := by
  ext <;> simp

/-- In the force branch, `applyBlackHole` leaves the position untouched and
adds exactly `(force * dt) • normalize direction` to the velocity. -/
theorem applyBlackHole_force (width height dt : ℝ) (bh : BlackHole)
    (draw : Draw) (p : Particle)
    (h : ¬ (bh.pos - p.pos).length < bh.eventHorizon) :
    applyBlackHole width height dt bh draw p =
      { p with velocity := p.velocity +
          (bh.mass * p.mass / ((bh.pos - p.pos).length * (bh.pos - p.pos).length) * dt) •
            (bh.pos - p.pos).normalize } := by
  unfold applyBlackHole
  rw [if_neg h]

/-- In the consumed branch, `applyBlackHole` respawns the particle. -/
theorem applyBlackHole_consumed (width height dt : ℝ) (bh : BlackHole)
    (draw : Draw) (p : Particle)
    (h : (bh.pos - p.pos).length < bh.eventHorizon) :
    applyBlackHole width height dt bh draw p =
      { p with
        pos := ⟨draw.rx * width, draw.ry * height⟩
        velocity := ⟨draw.rvx * 2 - 1, draw.rvy * 2 - 1⟩ } := by
  unfold applyBlackHole
  rw [if_pos h]

/-! ## C1 -/

/-- C1: for every particle and attractor with `dist ≥ eventHorizon` in an
unpaused frame, the velocity is updated by adding the normalized
displacement direction scaled by `(attractorMass * particleMass / dist^2) * dt`
with `dt` the frame delta times the time scale, the position is untouched,
and the magnitude of the velocity update equals
`(attractorMass * particleMass / dist^2) * dt`. -/
theorem C1_velocity_update (width height delta timeScale : ℝ) (bh : BlackHole)
    (draw : Draw) (p : Particle)
    (hdist : bh.eventHorizon ≤ (bh.pos - p.pos).length)
    (heh : 0 < bh.eventHorizon)
    (hmass : 0 ≤ bh.mass) (hpmass : 0 ≤ p.mass)
    (hdt : 0 ≤ delta * timeScale) :
    (applyBlackHole width height (delta * timeScale) bh draw p).velocity =
      p.velocity +
        (bh.mass * p.mass / ((bh.pos - p.pos).length * (bh.pos - p.pos).length)
          * (delta * timeScale)) • (bh.pos - p.pos).normalize ∧
    ((applyBlackHole width height (delta * timeScale) bh draw p).velocity
        - p.velocity).length =
      bh.mass * p.mass / ((bh.pos - p.pos).length * (bh.pos - p.pos).length)
        * (delta * timeScale) ∧
    (applyBlackHole width height (delta * timeScale) bh draw p).pos = p.pos := by
  have hlen : 0 < (bh.pos - p.pos).length := lt_of_lt_of_le heh hdist
  have hnotlt : ¬ (bh.pos - p.pos).length < bh.eventHorizon := not_lt.mpr hdist
  have heq := applyBlackHole_force width height (delta * timeScale) bh draw p hnotlt
  refine ⟨by rw [heq], ?_, by rw [heq]⟩
  rw [heq]
  simp only
  rw [vec_add_sub_cancel, Vec2.length_smul, Vec2.length_normalize (ne_of_gt hlen),
    mul_one, abs_of_nonneg]
  positivity

/-- Witness for C1: a particle of mass 1 at the origin with a black hole of
mass 1000 and event horizon 15 at distance 20, with frame delta 1 and time
scale 1: the velocity gains exactly `1000 * 1 / (20 * 20) * 1 = 2.5` along
the unit direction toward the black hole. -/
theorem C1_velocity_update_witness :
    (applyBlackHole 800 600 (1 * 1)
        { pos := ⟨20, 0⟩, mass := 1000, eventHorizon := 15 } ⟨0, 0, 0, 0⟩
        { pos := ⟨0, 0⟩, velocity := ⟨0, 0⟩, mass := 1 }).velocity =
      (⟨0, 0⟩ : Vec2) +
        ((1000 : ℝ) * 1 / (20 * 20) * (1 * 1)) •
          Vec2.normalize ((⟨20, 0⟩ : Vec2) - ⟨0, 0⟩) := by
  have hlen : Vec2.length ((⟨20, 0⟩ : Vec2) - ⟨0, 0⟩) = 20 := by
    rw [Vec2.sub_def, length_mk]
    exact sqrt_eval (by norm_num) (by norm_num)
  have h := C1_velocity_update 800 600 1 1
      { pos := ⟨20, 0⟩, mass := 1000, eventHorizon := 15 } ⟨0, 0, 0, 0⟩
      { pos := ⟨0, 0⟩, velocity := ⟨0, 0⟩, mass := 1 }
      (by rw [hlen]; norm_num) (by norm_num) (by norm_num) (by norm_num) (by norm_num)
  have h1 := h.1
  rw [hlen] at h1
  exact h1

/-! ## C2 -/

/-- C2 counterexample: a particle at distance exactly equal to the event
horizon (black hole at `(15, 0)`, particle at the origin, horizon 15).  The
claim says the branch taken is consumed, but the code (line 241) uses a
strict `distance < event_horizon` test: the particle keeps its position and
the force and normalize computation IS evaluated, changing its velocity. -/
theorem C2_counterexample :
    (Vec2.length ({ pos := ⟨15, 0⟩, mass := 1000, eventHorizon := 15 : BlackHole }.pos
        - ⟨0, 0⟩) =
      ({ pos := ⟨15, 0⟩, mass := 1000, eventHorizon := 15 : BlackHole }).eventHorizon) ∧
    (applyBlackHole 800 600 1 { pos := ⟨15, 0⟩, mass := 1000, eventHorizon := 15 }
        ⟨1/2, 1/2, 1/2, 1/2⟩ { pos := ⟨0, 0⟩, velocity := ⟨0, 0⟩, mass := 1 }).pos =
      (⟨0, 0⟩ : Vec2) ∧
    (applyBlackHole 800 600 1 { pos := ⟨15, 0⟩, mass := 1000, eventHorizon := 15 }
        ⟨1/2, 1/2, 1/2, 1/2⟩ { pos := ⟨0, 0⟩, velocity := ⟨0, 0⟩, mass := 1 }).velocity ≠
      ({ pos := ⟨0, 0⟩, velocity := ⟨0, 0⟩, mass := 1 : Particle }).velocity := by
  have hlen : Vec2.length ((⟨15, 0⟩ : Vec2) - ⟨0, 0⟩) = 15 := by
    rw [Vec2.sub_def, length_mk]
    exact sqrt_eval (by norm_num) (by norm_num)
  have heq := applyBlackHole_force 800 600 1
      { pos := ⟨15, 0⟩, mass := 1000, eventHorizon := 15 } ⟨1/2, 1/2, 1/2, 1/2⟩
      { pos := ⟨0, 0⟩, velocity := ⟨0, 0⟩, mass := 1 }
      (by show ¬ Vec2.length ((⟨15, 0⟩ : Vec2) - ⟨0, 0⟩) < (15 : ℝ); rw [hlen]; norm_num)
  refine ⟨hlen, by rw [heq], ?_⟩
  rw [heq]
  intro hcontra
  have hx := congrArg Vec2.x hcontra
  have hlen15 : Vec2.length (⟨15, 0⟩ : Vec2) = 15 := by
    rw [length_mk]
    exact sqrt_eval (by norm_num) (by norm_num)
  simp only [Vec2.sub_def, Vec2.normalize, Vec2.smul_def, Vec2.add_def] at hx
  norm_num [hlen15] at hx

/-- C2 amended: for a black hole with positive event horizon, the branch
taken is consumed exactly on the strict test `dist < eventHorizon`: for
every pair strictly below the horizon -- including the coincident case
`dist = 0` -- the particle is respawned from the random draws and the
force/normalize computation is never evaluated, so no division by zero
and no normalization of a zero-length vector occurs; at `dist` exactly
equal to the horizon the force branch runs instead, still division-safe
because there `dist = eventHorizon > 0`. -/
theorem C2_consumed_strict (width height dt : ℝ) (bh : BlackHole)
    (draw : Draw) (p : Particle) (heh : 0 < bh.eventHorizon) :
    ((bh.pos - p.pos).length < bh.eventHorizon →
      applyBlackHole width height dt bh draw p =
        { p with
          pos := ⟨draw.rx * width, draw.ry * height⟩
          velocity := ⟨draw.rvx * 2 - 1, draw.rvy * 2 - 1⟩ }) ∧
    ((bh.pos - p.pos).length = bh.eventHorizon →
      0 < (bh.pos - p.pos).length ∧
      applyBlackHole width height dt bh draw p =
        { p with velocity := p.velocity +
            (bh.mass * p.mass /
              ((bh.pos - p.pos).length * (bh.pos - p.pos).length) * dt) •
              (bh.pos - p.pos).normalize }) := by
  constructor
  · exact applyBlackHole_consumed width height dt bh draw p
  · intro he
    refine ⟨lt_of_lt_of_eq heh he.symm, ?_⟩
    exact applyBlackHole_force width height dt bh draw p (by rw [he]; exact lt_irrefl _)

/-- Witness for the amended C2: the coincident case.  A black hole of
horizon 15 exactly on top of the particle (`dist = 0`) consumes it. -/
theorem C2_consumed_strict_witness :
    applyBlackHole 800 600 1 { pos := ⟨7, 9⟩, mass := 1000, eventHorizon := 15 }
        ⟨1/2, 1/2, 1/2, 1/2⟩ { pos := ⟨7, 9⟩, velocity := ⟨0, 0⟩, mass := 1 } =
      { pos := ⟨(1/2 : ℝ) * 800, (1/2 : ℝ) * 600⟩,
        velocity := ⟨(1/2 : ℝ) * 2 - 1, (1/2 : ℝ) * 2 - 1⟩, mass := 1 } := by
  have hlen : Vec2.length ((⟨7, 9⟩ : Vec2) - ⟨7, 9⟩) = 0 := by
    rw [Vec2.sub_def, length_mk]
    exact sqrt_eval (by norm_num) (by norm_num)
  exact (C2_consumed_strict 800 600 1
      { pos := ⟨7, 9⟩, mass := 1000, eventHorizon := 15 } ⟨1/2, 1/2, 1/2, 1/2⟩
      { pos := ⟨7, 9⟩, velocity := ⟨0, 0⟩, mass := 1 } (by norm_num)).1
    (by rw [hlen]; norm_num)

/-! ## C3 -/

theorem mem_mapIdx_imp {α : Type} {f : ℕ → α → α} {l : List α} {b : α}
    (hb : b ∈ l.mapIdx f) : ∃ i a, a ∈ l ∧ b = f i a := by
  induction l generalizing f with
  | nil =>
    rw [List.mapIdx_nil] at hb
    exact absurd hb (List.not_mem_nil b)
  | cons x xs ih =>
    rw [List.mapIdx_cons] at hb
    rcases List.mem_cons.mp hb with h | h
    · exact ⟨0, x, List.mem_cons_self _ _, h⟩
    · obtain ⟨i, a, ha, rfl⟩ := ih h
      exact ⟨i + 1, a, List.mem_cons_of_mem _ ha, rfl⟩

theorem mem_mergePairs {bhs : List BlackHole} {p : ℕ × ℕ}
    (hp : p ∈ mergePairs bhs) :
    p.1 < bhs.length ∧ p.2 < bhs.length ∧ p.1 < p.2 ∧
      ((bhs.getD p.1 default).pos - (bhs.getD p.2 default).pos).length < 30 := by
  unfold mergePairs at hp
  obtain ⟨i', hi', hj'⟩ := List.mem_flatMap.mp hp
  obtain ⟨j', hj'', hsome⟩ := List.mem_filterMap.mp hj'
  rw [List.mem_range] at hi' hj''
  split at hsome
  · rename_i hcond
    obtain rfl := Option.some.inj hsome
    exact ⟨hi', hj'', hcond.1, hcond.2⟩
  · exact Option.noConfusion hsome

theorem mem_mergeBlackHoles {bhs : List BlackHole} {b : BlackHole}
    (hb : b ∈ mergeBlackHoles bhs) :
    b ∈ bhs ∨ ∃ b1 b2, b1 ∈ bhs ∧ b2 ∈ bhs ∧ b = mergedBlackHole b1 b2 := by
  unfold mergeBlackHoles at hb
  rcases List.mem_append.mp hb with h | h
  · obtain ⟨i, hi, hsome⟩ := List.mem_filterMap.mp h
    rw [List.mem_range] at hi
    split at hsome
    · exact Option.noConfusion hsome
    · left
      obtain rfl := Option.some.inj hsome
      rw [List.getD_eq_getElem _ _ hi]
      exact List.getElem_mem hi
  · obtain ⟨ij, hij, rfl⟩ := List.mem_map.mp h
    obtain ⟨h1, h2, _, _⟩ := mem_mergePairs hij
    right
    refine ⟨bhs.getD ij.1 default, bhs.getD ij.2 default, ?_, ?_, rfl⟩
    · rw [List.getD_eq_getElem _ _ h1]; exact List.getElem_mem h1
    · rw [List.getD_eq_getElem _ _ h2]; exact List.getElem_mem h2

theorem eventHorizonOf_1000 : eventHorizonOf 1000 = 15 := by
  unfold eventHorizonOf
  norm_num [Real.sqrt_one]

theorem bhInvariant_adjust (up down ml : Bool) (cursor : Vec2) (b : BlackHole) :
    bhInvariant (adjustBlackHole up down ml cursor b) := by
  unfold bhInvariant adjustBlackHole
  simp

theorem bhInvariant_merged (b1 b2 : BlackHole) : bhInvariant (mergedBlackHole b1 b2) :=
  rfl

/-- C3: the event horizon always equals `sqrt(mass / 1000) * 15`: it holds
for the initial black hole of `setup`, for the black hole spawned by the
N key, and it is preserved by `update_black_holes` (mass adjustment) and
by `merge_black_holes`; no operation sets the horizon independently of
the mass. -/
theorem C3_event_horizon_invariant (w h rx ry : ℝ) (cp up down ml : Bool)
    (sel : ℕ) (cursor : Vec2) (bhs : List BlackHole)
    (hinv : ∀ b ∈ bhs, bhInvariant b) :
    bhInvariant (initialBlackHole w h) ∧
    bhInvariant (spawnBlackHole rx ry w h) ∧
    (∀ b ∈ addBlackHole rx ry w h bhs, bhInvariant b) ∧
    (∀ b ∈ updateBlackHoles cp sel up down ml cursor bhs, bhInvariant b) ∧
    (∀ b ∈ mergeBlackHoles bhs, bhInvariant b) := by
  have hspawn : bhInvariant (spawnBlackHole rx ry w h) := by
    unfold bhInvariant spawnBlackHole
    simp
  refine ⟨?_, hspawn, ?_, ?_, ?_⟩
  · unfold bhInvariant initialBlackHole
    simp [eventHorizonOf_1000]
  · intro b hb
    rcases List.mem_append.mp hb with h1 | h1
    · exact hinv b h1
    · rw [List.mem_singleton.mp h1]
      exact hspawn
  · intro b hb
    unfold updateBlackHoles at hb
    split at hb
    · obtain ⟨i, a, ha, rfl⟩ := mem_mapIdx_imp hb
      split
      · exact bhInvariant_adjust up down ml cursor a
      · exact hinv a ha
    · exact hinv b hb
  · intro b hb
    rcases mem_mergeBlackHoles hb with h1 | ⟨b1, b2, _, _, rfl⟩
    · exact hinv b h1
    · exact bhInvariant_merged b1 b2

/-- Witness for C3 at window 800 x 600 and a singleton black-hole list. -/
theorem C3_event_horizon_invariant_witness :
    bhInvariant (initialBlackHole 800 600) ∧
    bhInvariant (spawnBlackHole (1/2) (1/2) 800 600) := by
  have h := C3_event_horizon_invariant 800 600 (1/2) (1/2) true true false false
      0 ⟨0, 0⟩ [{ pos := ⟨400, 300⟩, mass := 1000, eventHorizon := 15 }]
      (by
        intro b hb
        rw [List.mem_singleton.mp hb]
        show (15 : ℝ) = eventHorizonOf 1000
        rw [eventHorizonOf_1000])
  exact ⟨h.1, h.2.1⟩

/-! ## C4 -/

theorem mergePairs_two (b1 b2 : BlackHole)
    (hd : (b1.pos - b2.pos).length < 30) :
    mergePairs [b1, b2] = [(0, 1)] := by
  have hd2 : Vec2.length ⟨b1.pos.x - b2.pos.x, b1.pos.y - b2.pos.y⟩ < 30 := by
    rw [← Vec2.sub_def]
    exact hd
  unfold mergePairs
  simp [List.range_succ, List.filterMap_cons, List.filterMap_nil,
    List.flatMap_cons, List.flatMap_nil, hd2]

theorem mergeBlackHoles_two (b1 b2 : BlackHole)
    (hd : (b1.pos - b2.pos).length < 30) :
    mergeBlackHoles [b1, b2] = [mergedBlackHole b1 b2] := by
  unfold mergeBlackHoles
  rw [mergePairs_two b1 b2 hd]
  simp [List.range_succ]

theorem mergeWaves_two (b1 b2 : BlackHole)
    (hd : (b1.pos - b2.pos).length < 30) :
    mergeWaves [b1, b2] =
      [{ pos := (2:ℝ)⁻¹ • (b1.pos + b2.pos),
         intensity := (b1.mass + b2.mass) / 1000 }] := by
  unfold mergeWaves
  rw [mergePairs_two b1 b2 hd]
  simp [mergedBlackHole]

/-- C4: for two live attractors closer than the merge threshold 30, the
merge step replaces the pair by a single black hole at the midpoint with
the summed mass and the event horizon rederived from that mass, and
spawns one gravitational wave there with intensity `mass / 1000`;
neither source black hole remains. -/
theorem C4_merge_pair (b1 b2 : BlackHole)
    (hd : (b1.pos - b2.pos).length < 30) :
    mergeBlackHoles [b1, b2] = [mergedBlackHole b1 b2] ∧
    mergeWaves [b1, b2] =
      [{ pos := (2:ℝ)⁻¹ • (b1.pos + b2.pos),
         intensity := (b1.mass + b2.mass) / 1000 }] ∧
    (mergedBlackHole b1 b2).pos = (2:ℝ)⁻¹ • (b1.pos + b2.pos) ∧
    (mergedBlackHole b1 b2).mass = b1.mass + b2.mass ∧
    (mergedBlackHole b1 b2).eventHorizon = eventHorizonOf (b1.mass + b2.mass) :=
  ⟨mergeBlackHoles_two b1 b2 hd, mergeWaves_two b1 b2 hd, rfl, rfl, rfl⟩

/-- Witness for C4: the spec's concrete case — two coincident black holes
of masses 400 and 600 merge into one of mass 1000 with event horizon
exactly 15 at their common position; neither source survives. -/
theorem C4_merge_pair_witness :
    Vec2.length ((⟨100, 200⟩ : Vec2) - ⟨100, 200⟩) = 0 ∧
    mergeBlackHoles
        [{ pos := ⟨100, 200⟩, mass := 400, eventHorizon := eventHorizonOf 400 },
         { pos := ⟨100, 200⟩, mass := 600, eventHorizon := eventHorizonOf 600 }] =
      [{ pos := ⟨100, 200⟩, mass := 1000, eventHorizon := 15 }] := by
  have hlen : Vec2.length ((⟨100, 200⟩ : Vec2) - ⟨100, 200⟩) = 0 := by
    rw [Vec2.sub_def, length_mk]
    exact sqrt_eval (by norm_num) (by norm_num)
  have h := C4_merge_pair
      { pos := ⟨100, 200⟩, mass := 400, eventHorizon := eventHorizonOf 400 }
      { pos := ⟨100, 200⟩, mass := 600, eventHorizon := eventHorizonOf 600 }
      (by
        show Vec2.length ((⟨100, 200⟩ : Vec2) - ⟨100, 200⟩) < 30
        rw [hlen]; norm_num)
  refine ⟨hlen, ?_⟩
  rw [h.1]
  unfold mergedBlackHole
  have hm : (400 : ℝ) + 600 = 1000 := by norm_num
  congr 1
  ext
  · show (2:ℝ)⁻¹ * (100 + 100) = 100; norm_num
  · show (2:ℝ)⁻¹ * (200 + 200) = 200; norm_num
  · exact hm
  · show eventHorizonOf (400 + 600) = 15
    rw [hm, eventHorizonOf_1000]

/-! ## C5 -/

/-- C5 counterexample: two coincident black holes with the second one
selected (index 1, valid beforehand).  `merge_black_holes` never touches
`simulation_state.selected_black_hole`, so after the merge the collection
has one element and index 1 is out of range. -/
theorem C5_counterexample :
    (1 < ([{ pos := ⟨0, 0⟩, mass := 400, eventHorizon := eventHorizonOf 400 },
           { pos := ⟨0, 0⟩, mass := 600, eventHorizon := eventHorizonOf 600 }] :
        List BlackHole).length) ∧
    ¬ 1 < (mergeBlackHoles
        [{ pos := ⟨0, 0⟩, mass := 400, eventHorizon := eventHorizonOf 400 },
         { pos := ⟨0, 0⟩, mass := 600, eventHorizon := eventHorizonOf 600 }]).length := by
  have hd : Vec2.length ((⟨0, 0⟩ : Vec2) - ⟨0, 0⟩) < 30 := by
    rw [Vec2.sub_def, length_mk]
    rw [sqrt_eval (le_refl (0:ℝ)) (by norm_num)]
    norm_num
  rw [mergeBlackHoles_two
    { pos := ⟨0, 0⟩, mass := 400, eventHorizon := eventHorizonOf 400 }
    { pos := ⟨0, 0⟩, mass := 600, eventHorizon := eventHorizonOf 600 } hd]
  simp

/-- C5 amended: the selected index stays valid after the add and
remove-selected operations — removing the selected black hole when at
least two exist always reindexes into range, and adding preserves
validity — but `merge_black_holes` leaves the index unchanged, so a merge
can leave it out of range. -/
theorem C5_selection_after_count_change (sel : ℕ) (bhs : List BlackHole)
    (rx ry w h : ℝ) :
    (∀ out, deleteSelected sel bhs = some out → 1 < bhs.length →
      out.2 < out.1.length) ∧
    (sel < bhs.length → sel < (addBlackHole rx ry w h bhs).length) := by
  constructor
  · intro out hout hlen
    unfold deleteSelected at hout
    rw [if_pos hlen] at hout
    split at hout
    · rename_i hsel
      obtain rfl := Option.some.inj hout
      have hmod : sel % (bhs.length - 1) < bhs.length - 1 :=
        Nat.mod_lt _ (by omega)
      have herase : (bhs.eraseIdx sel).length = bhs.length - 1 :=
        List.length_eraseIdx_of_lt hsel
      simpa [herase] using hmod
    · exact Option.noConfusion hout
  · intro hsel
    unfold addBlackHole
    rw [List.length_append]
    omega

/-- Witness for the amended C5: deleting index 1 from a three-element
collection yields the two survivors with index `1 % 2 = 1`, valid for
them; adding keeps index 1 valid. -/
theorem C5_selection_after_count_change_witness :
    deleteSelected 1 [initialBlackHole 800 600, initialBlackHole 800 600,
        initialBlackHole 800 600] =
      some ([initialBlackHole 800 600, initialBlackHole 800 600], 1) ∧
    (([initialBlackHole 800 600, initialBlackHole 800 600] : List BlackHole), 1).2 <
      (([initialBlackHole 800 600, initialBlackHole 800 600] : List BlackHole), 1).1.length ∧
    1 < (addBlackHole (1/2) (1/2) 800 600
      [initialBlackHole 800 600, initialBlackHole 800 600,
       initialBlackHole 800 600]).length := by
  have h := C5_selection_after_count_change 1
      [initialBlackHole 800 600, initialBlackHole 800 600, initialBlackHole 800 600]
      (1/2) (1/2) 800 600
  have hdel : deleteSelected 1 [initialBlackHole 800 600, initialBlackHole 800 600,
      initialBlackHole 800 600] =
      some ([initialBlackHole 800 600, initialBlackHole 800 600], 1) := by
    unfold deleteSelected
    norm_num [List.eraseIdx]
  exact ⟨hdel, h.1 _ hdel (by norm_num), h.2 (by norm_num)⟩

/-! ## C6 -/

theorem adjustMass_ge_one {m : ℝ} (hm : 1 ≤ m) (up down : Bool) :
    1 ≤ adjustMass up down m := by
  unfold adjustMass
  cases down <;> cases up <;> simp [le_max_iff] <;> linarith

/-- C6: the black-hole mass never drops below the floor 1: for every
sequence of per-frame ArrowUp/ArrowDown input pairs, folding the mass
mutation of `update_black_holes` over the sequence keeps the mass at or
above 1 — in particular it never reaches zero or a negative value, no
matter how many consecutive decrease inputs occur. -/
theorem C6_mass_floor (inputs : List (Bool × Bool)) (m : ℝ) (hm : 1 ≤ m) :
    1 ≤ inputs.foldl (fun acc ud => adjustMass ud.1 ud.2 acc) m := by
  induction inputs generalizing m with
  | nil => exact hm
  | cons ud rest ih => exact ih _ (adjustMass_ge_one hm ud.1 ud.2)

/-- Witness for C6: five consecutive decrease inputs starting from mass 5
leave the mass at or above 1. -/
theorem C6_mass_floor_witness :
    1 ≤ ([(false, true), (false, true), (false, true), (false, true),
          (false, true)] : List (Bool × Bool)).foldl
        (fun acc ud => adjustMass ud.1 ud.2 acc) 5 :=
  C6_mass_floor _ 5 (by norm_num)

/-! ## C7 -/

theorem stepParticle_velocity (width height dt : ℝ)
    (bd : List (BlackHole × Draw)) (p : Particle) :
    (stepParticle width height dt bd p).velocity =
      (forceLoop width height dt bd p).velocity := rfl

theorem stepParticle_pos_x (width height dt : ℝ)
    (bd : List (BlackHole × Draw)) (p : Particle) :
    (stepParticle width height dt bd p).pos.x =
      rustRem ((forceLoop width height dt bd p).pos.x +
        dt * (forceLoop width height dt bd p).velocity.x + width) width := rfl

theorem stepParticle_pos_y (width height dt : ℝ)
    (bd : List (BlackHole × Draw)) (p : Particle) :
    (stepParticle width height dt bd p).pos.y =
      rustRem ((forceLoop width height dt bd p).pos.y +
        dt * (forceLoop width height dt bd p).velocity.y + height) height := rfl

/-- C7 counterexample, two failing inputs.  First: with two black holes, a
particle consumed by the first (distance 0 below its horizon 15) is
respawned with velocity `x`-component `0.9`, but the second black hole —
at distance 20 from the respawn point — is processed afterward inside the
same frame and adds a pull of `1000 * 1 / (20 * 20) * 1 = 2.5`, leaving
the post-step velocity `x`-component at `3.4 > 1`, outside `[-1, 1]`.
Second: even with the consuming black hole alone, a scaled frame delta
`dt = 2000` exceeding the window width (the time scale grows without
bound while BracketRight is held) carries the respawned particle — draws
`rx = 0`, `rvx = 0`, so respawn `x = 0` and velocity `x = -1` — to
`x = -2000`, and the wrap `(-2000 + 800) % 800` of Rust's
sign-of-dividend remainder yields `-400`, outside `[0, 800)`. -/
theorem C7_counterexample :
    (Vec2.length
        (({ pos := ⟨0, 0⟩, mass := 1000, eventHorizon := 15 } : BlackHole).pos -
          ({ pos := ⟨0, 0⟩, velocity := ⟨0, 0⟩, mass := 1 } : Particle).pos) <
      ({ pos := ⟨0, 0⟩, mass := 1000, eventHorizon := 15 } : BlackHole).eventHorizon) ∧
    (stepParticle 800 600 1
        [({ pos := ⟨0, 0⟩, mass := 1000, eventHorizon := 15 }, ⟨1/2, 1/2, 19/20, 1/2⟩),
         ({ pos := ⟨420, 300⟩, mass := 1000, eventHorizon := 15 }, ⟨0, 0, 0, 0⟩)]
        { pos := ⟨0, 0⟩, velocity := ⟨0, 0⟩, mass := 1 }).velocity.x = 17/5 ∧
    ¬ (stepParticle 800 600 1
        [({ pos := ⟨0, 0⟩, mass := 1000, eventHorizon := 15 }, ⟨1/2, 1/2, 19/20, 1/2⟩),
         ({ pos := ⟨420, 300⟩, mass := 1000, eventHorizon := 15 }, ⟨0, 0, 0, 0⟩)]
        { pos := ⟨0, 0⟩, velocity := ⟨0, 0⟩, mass := 1 }).velocity.x ≤ 1 ∧
    (stepParticle 800 600 2000
        [({ pos := ⟨0, 0⟩, mass := 1000, eventHorizon := 15 }, ⟨0, 1/2, 0, 1/2⟩)]
        { pos := ⟨0, 0⟩, velocity := ⟨0, 0⟩, mass := 1 }).pos.x = -400 ∧
    ¬ 0 ≤ (stepParticle 800 600 2000
        [({ pos := ⟨0, 0⟩, mass := 1000, eventHorizon := 15 }, ⟨0, 1/2, 0, 1/2⟩)]
        { pos := ⟨0, 0⟩, velocity := ⟨0, 0⟩, mass := 1 }).pos.x := by
  have hlen0 : Vec2.length ((⟨0, 0⟩ : Vec2) - ⟨0, 0⟩) = 0 := by
    rw [Vec2.sub_def, length_mk]
    exact sqrt_eval (by norm_num) (by norm_num)
  have h1 : applyBlackHole 800 600 1
      { pos := ⟨0, 0⟩, mass := 1000, eventHorizon := 15 } ⟨1/2, 1/2, 19/20, 1/2⟩
      { pos := ⟨0, 0⟩, velocity := ⟨0, 0⟩, mass := 1 } =
      { pos := ⟨400, 300⟩, velocity := ⟨9/10, 0⟩, mass := 1 } := by
    rw [applyBlackHole_consumed _ _ _ _ _ _ (by rw [hlen0]; norm_num)]
    ext <;> norm_num
  have hlen20 : Vec2.length ((⟨420, 300⟩ : Vec2) - ⟨400, 300⟩) = 20 := by
    rw [Vec2.sub_def, length_mk]
    exact sqrt_eval (by norm_num) (by norm_num)
  have h2 : applyBlackHole 800 600 1
      { pos := ⟨420, 300⟩, mass := 1000, eventHorizon := 15 } ⟨0, 0, 0, 0⟩
      { pos := ⟨400, 300⟩, velocity := ⟨9/10, 0⟩, mass := 1 } =
      { pos := ⟨400, 300⟩, velocity := ⟨17/5, 0⟩, mass := 1 } := by
    rw [applyBlackHole_force _ _ _ _ _ _ (by rw [hlen20]; norm_num)]
    ext
    · norm_num
    · norm_num
    · show (9:ℝ)/10 + 1000 * 1 /
          (Vec2.length ((⟨420, 300⟩ : Vec2) - ⟨400, 300⟩) *
            Vec2.length ((⟨420, 300⟩ : Vec2) - ⟨400, 300⟩)) * 1 *
          (1 / Vec2.length ((⟨420, 300⟩ : Vec2) - ⟨400, 300⟩) * (420 - 400)) = 17/5
      rw [hlen20]
      norm_num
    · show (0:ℝ) + 1000 * 1 /
          (Vec2.length ((⟨420, 300⟩ : Vec2) - ⟨400, 300⟩) *
            Vec2.length ((⟨420, 300⟩ : Vec2) - ⟨400, 300⟩)) * 1 *
          (1 / Vec2.length ((⟨420, 300⟩ : Vec2) - ⟨400, 300⟩) * (300 - 300)) = 0
      rw [hlen20]
      norm_num
    · rfl
  have hloop : forceLoop 800 600 1
      [({ pos := ⟨0, 0⟩, mass := 1000, eventHorizon := 15 }, ⟨1/2, 1/2, 19/20, 1/2⟩),
       ({ pos := ⟨420, 300⟩, mass := 1000, eventHorizon := 15 }, ⟨0, 0, 0, 0⟩)]
      { pos := ⟨0, 0⟩, velocity := ⟨0, 0⟩, mass := 1 } =
      { pos := ⟨400, 300⟩, velocity := ⟨17/5, 0⟩, mass := 1 } := by
    unfold forceLoop
    rw [List.foldl_cons, h1, List.foldl_cons, h2, List.foldl_nil]
  have h3 : applyBlackHole 800 600 2000
      { pos := ⟨0, 0⟩, mass := 1000, eventHorizon := 15 } ⟨0, 1/2, 0, 1/2⟩
      { pos := ⟨0, 0⟩, velocity := ⟨0, 0⟩, mass := 1 } =
      { pos := ⟨0, 300⟩, velocity := ⟨-1, 0⟩, mass := 1 } := by
    rw [applyBlackHole_consumed _ _ _ _ _ _ (by rw [hlen0]; norm_num)]
    ext <;> norm_num
  have hloop2 : forceLoop 800 600 2000
      [({ pos := ⟨0, 0⟩, mass := 1000, eventHorizon := 15 }, ⟨0, 1/2, 0, 1/2⟩)]
      { pos := ⟨0, 0⟩, velocity := ⟨0, 0⟩, mass := 1 } =
      { pos := ⟨0, 300⟩, velocity := ⟨-1, 0⟩, mass := 1 } := by
    unfold forceLoop
    rw [List.foldl_cons, h3, List.foldl_nil]
  have hrem : rustRem ((0 : ℝ) + 2000 * (-1) + 800) 800 = -400 := by
    rw [show (0 : ℝ) + 2000 * (-1) + 800 = -1200 by norm_num]
    unfold rustRem rtrunc
    rw [if_neg (by norm_num)]
    rw [show ⌈((-1200 : ℝ) / 800)⌉ = -1 from by
      rw [Int.ceil_eq_iff]
      constructor <;> norm_num]
    norm_num
  have hpx : (stepParticle 800 600 2000
      [({ pos := ⟨0, 0⟩, mass := 1000, eventHorizon := 15 }, ⟨0, 1/2, 0, 1/2⟩)]
      { pos := ⟨0, 0⟩, velocity := ⟨0, 0⟩, mass := 1 }).pos.x = -400 := by
    rw [stepParticle_pos_x, hloop2]
    exact hrem
  refine ⟨by rw [hlen0]; norm_num, ?_, ?_, hpx, by rw [hpx]; norm_num⟩ <;>
    rw [stepParticle_velocity, hloop] <;> norm_num

/-- C7 amended: when the frame's black-hole list consists of the single
consuming black hole (no later black hole acts on the respawned particle),
the random draws lie in `[0, 1)` as `rand::random::<f32>()` produces, and
the scaled frame delta satisfies `0 ≤ dt ≤ width` and `dt ≤ height`, the
post-step position lies in `[0, width) x [0, height)` and both velocity
components lie in `[-1, 1]`. -/
theorem C7_consumed_bounds (width height dt : ℝ) (bh : BlackHole)
    (draw : Draw) (p : Particle)
    (hw : 0 < width) (hh : 0 < height)
    (hdt0 : 0 ≤ dt) (hdtw : dt ≤ width) (hdth : dt ≤ height)
    (hrx0 : 0 ≤ draw.rx) (hrx1 : draw.rx < 1)
    (hry0 : 0 ≤ draw.ry) (hry1 : draw.ry < 1)
    (hvx0 : 0 ≤ draw.rvx) (hvx1 : draw.rvx < 1)
    (hvy0 : 0 ≤ draw.rvy) (hvy1 : draw.rvy < 1)
    (hcons : (bh.pos - p.pos).length < bh.eventHorizon) :
    (0 ≤ (stepParticle width height dt [(bh, draw)] p).pos.x ∧
      (stepParticle width height dt [(bh, draw)] p).pos.x < width) ∧
    (0 ≤ (stepParticle width height dt [(bh, draw)] p).pos.y ∧
      (stepParticle width height dt [(bh, draw)] p).pos.y < height) ∧
    (-1 ≤ (stepParticle width height dt [(bh, draw)] p).velocity.x ∧
      (stepParticle width height dt [(bh, draw)] p).velocity.x ≤ 1) ∧
    (-1 ≤ (stepParticle width height dt [(bh, draw)] p).velocity.y ∧
      (stepParticle width height dt [(bh, draw)] p).velocity.y ≤ 1) := by
  have hloop : forceLoop width height dt [(bh, draw)] p =
      { p with
        pos := ⟨draw.rx * width, draw.ry * height⟩
        velocity := ⟨draw.rvx * 2 - 1, draw.rvy * 2 - 1⟩ } := by
    unfold forceLoop
    rw [List.foldl_cons, applyBlackHole_consumed _ _ _ _ _ _ hcons, List.foldl_nil]
  have hXx : 0 ≤ draw.rx * width + dt * (draw.rvx * 2 - 1) + width := by
    have h1 : 0 ≤ draw.rx * width := mul_nonneg hrx0 hw.le
    have h2 : dt * (-1) ≤ dt * (draw.rvx * 2 - 1) :=
      mul_le_mul_of_nonneg_left (by linarith) hdt0
    linarith
  have hXy : 0 ≤ draw.ry * height + dt * (draw.rvy * 2 - 1) + height := by
    have h1 : 0 ≤ draw.ry * height := mul_nonneg hry0 hh.le
    have h2 : dt * (-1) ≤ dt * (draw.rvy * 2 - 1) :=
      mul_le_mul_of_nonneg_left (by linarith) hdt0
    linarith
  refine ⟨⟨?_, ?_⟩, ⟨?_, ?_⟩, ⟨?_, ?_⟩, ⟨?_, ?_⟩⟩
  · rw [stepParticle_pos_x, hloop]
    exact (rustRem_mem_Ico hXx hw).1
  · rw [stepParticle_pos_x, hloop]
    exact (rustRem_mem_Ico hXx hw).2
  · rw [stepParticle_pos_y, hloop]
    exact (rustRem_mem_Ico hXy hh).1
  · rw [stepParticle_pos_y, hloop]
    exact (rustRem_mem_Ico hXy hh).2
  · rw [stepParticle_velocity, hloop]
    show (-1 : ℝ) ≤ draw.rvx * 2 - 1
    linarith
  · rw [stepParticle_velocity, hloop]
    show draw.rvx * 2 - 1 ≤ (1 : ℝ)
    linarith
  · rw [stepParticle_velocity, hloop]
    show (-1 : ℝ) ≤ draw.rvy * 2 - 1
    linarith
  · rw [stepParticle_velocity, hloop]
    show draw.rvy * 2 - 1 ≤ (1 : ℝ)
    linarith

/-- Witness for the amended C7: a particle at `(3, 4)` (distance 5 from a
black hole of horizon 15 at the origin) is consumed; with all four draws
at `1/2` and `dt = 1` the post-step position is inside `[0,800) x [0,600)`
and the velocity inside `[-1, 1]` per axis. -/
theorem C7_consumed_bounds_witness :
    (0 ≤ (stepParticle 800 600 1
        [({ pos := ⟨0, 0⟩, mass := 1000, eventHorizon := 15 }, ⟨1/2, 1/2, 1/2, 1/2⟩)]
        { pos := ⟨3, 4⟩, velocity := ⟨0, 0⟩, mass := 1 }).pos.x ∧
      (stepParticle 800 600 1
        [({ pos := ⟨0, 0⟩, mass := 1000, eventHorizon := 15 }, ⟨1/2, 1/2, 1/2, 1/2⟩)]
        { pos := ⟨3, 4⟩, velocity := ⟨0, 0⟩, mass := 1 }).pos.x < 800) ∧
    (0 ≤ (stepParticle 800 600 1
        [({ pos := ⟨0, 0⟩, mass := 1000, eventHorizon := 15 }, ⟨1/2, 1/2, 1/2, 1/2⟩)]
        { pos := ⟨3, 4⟩, velocity := ⟨0, 0⟩, mass := 1 }).pos.y ∧
      (stepParticle 800 600 1
        [({ pos := ⟨0, 0⟩, mass := 1000, eventHorizon := 15 }, ⟨1/2, 1/2, 1/2, 1/2⟩)]
        { pos := ⟨3, 4⟩, velocity := ⟨0, 0⟩, mass := 1 }).pos.y < 600) ∧
    (-1 ≤ (stepParticle 800 600 1
        [({ pos := ⟨0, 0⟩, mass := 1000, eventHorizon := 15 }, ⟨1/2, 1/2, 1/2, 1/2⟩)]
        { pos := ⟨3, 4⟩, velocity := ⟨0, 0⟩, mass := 1 }).velocity.x ∧
      (stepParticle 800 600 1
        [({ pos := ⟨0, 0⟩, mass := 1000, eventHorizon := 15 }, ⟨1/2, 1/2, 1/2, 1/2⟩)]
        { pos := ⟨3, 4⟩, velocity := ⟨0, 0⟩, mass := 1 }).velocity.x ≤ 1) ∧
    (-1 ≤ (stepParticle 800 600 1
        [({ pos := ⟨0, 0⟩, mass := 1000, eventHorizon := 15 }, ⟨1/2, 1/2, 1/2, 1/2⟩)]
        { pos := ⟨3, 4⟩, velocity := ⟨0, 0⟩, mass := 1 }).velocity.y ∧
      (stepParticle 800 600 1
        [({ pos := ⟨0, 0⟩, mass := 1000, eventHorizon := 15 }, ⟨1/2, 1/2, 1/2, 1/2⟩)]
        { pos := ⟨3, 4⟩, velocity := ⟨0, 0⟩, mass := 1 }).velocity.y ≤ 1) := by
  have hlen5 : Vec2.length ((⟨0, 0⟩ : Vec2) - ⟨3, 4⟩) = 5 := by
    rw [Vec2.sub_def, length_mk]
    exact sqrt_eval (by norm_num) (by norm_num)
  exact C7_consumed_bounds 800 600 1
    { pos := ⟨0, 0⟩, mass := 1000, eventHorizon := 15 } ⟨1/2, 1/2, 1/2, 1/2⟩
    { pos := ⟨3, 4⟩, velocity := ⟨0, 0⟩, mass := 1 }
    (by norm_num) (by norm_num) (by norm_num) (by norm_num) (by norm_num)
    (by norm_num) (by norm_num) (by norm_num) (by norm_num)
    (by norm_num) (by norm_num) (by norm_num) (by norm_num)
    (by rw [hlen5]; norm_num)

/-! ## C8 -/

theorem updateParticles_paused (width height dt : ℝ) (bhs : List BlackHole)
    (draws : List (List Draw)) (ps : List Particle) :
    updateParticles true width height dt bhs draws ps = ps := by
  unfold updateParticles
  simp

/-- C8: when the pause flag is set, `update_particles` returns before
touching any particle, so positions and velocities are unchanged across
any number `N` of consecutive paused frames, and the first unpaused frame
afterward computes exactly what it would have computed from the state
frozen at pause time. -/
theorem C8_pause_freezes (width height dt : ℝ) (bhs : List BlackHole)
    (draws : List (List Draw)) (ps : List Particle) (N : ℕ) :
    (fun l => updateParticles true width height dt bhs draws l)^[N] ps = ps ∧
    updateParticles false width height dt bhs draws
        ((fun l => updateParticles true width height dt bhs draws l)^[N] ps) =
      updateParticles false width height dt bhs draws ps := by
  have hiter : (fun l => updateParticles true width height dt bhs draws l)^[N] ps = ps :=
    Function.iterate_fixed (updateParticles_paused width height dt bhs draws ps) N
  exact ⟨hiter, by rw [hiter]⟩

/-! ## C9 -/

/-- C9 counterexample: a particle at `x = 1000` after the window shrinks
to 800 x 600.  `handle_window_resize` (lines 172-185) only recenters the
camera: the particle list is returned unchanged and the particle still
lies outside `[0, 800)`, contradicting the claim that every particle
position lies within the new viewport after the resize is handled. -/
theorem C9_counterexample :
    (handleWindowResize 800 600 ⟨400, 300⟩
        [{ pos := ⟨1000, 300⟩, velocity := ⟨0, 0⟩, mass := 1 }]).2 =
      [{ pos := ⟨1000, 300⟩, velocity := ⟨0, 0⟩, mass := 1 }] ∧
    ¬ ({ pos := ⟨1000, 300⟩, velocity := ⟨0, 0⟩, mass := 1 : Particle }).pos.x < 800 :=
  ⟨rfl, by norm_num⟩

/-- C9 amended: a resize notification only moves the camera to the new
window center and leaves every particle untouched; an out-of-bounds
particle re-enters the new viewport only at the next unpaused
`update_particles` step, whose wrap puts its position into
`[0, width) x [0, height)` whenever the pre-wrap coordinates are at least
`-width` / `-height`. -/
theorem C9_resize_camera_only (ew eh : ℝ) (cam : Vec2) (ps : List Particle)
    (width height dt : ℝ) (bd : List (BlackHole × Draw)) (p : Particle)
    (hw : 0 < width) (hh : 0 < height)
    (hx : 0 ≤ (forceLoop width height dt bd p).pos.x +
      dt * (forceLoop width height dt bd p).velocity.x + width)
    (hy : 0 ≤ (forceLoop width height dt bd p).pos.y +
      dt * (forceLoop width height dt bd p).velocity.y + height) :
    (handleWindowResize ew eh cam ps).1 = ⟨ew / 2, eh / 2⟩ ∧
    (handleWindowResize ew eh cam ps).2 = ps ∧
    (0 ≤ (stepParticle width height dt bd p).pos.x ∧
      (stepParticle width height dt bd p).pos.x < width) ∧
    (0 ≤ (stepParticle width height dt bd p).pos.y ∧
      (stepParticle width height dt bd p).pos.y < height) := by
  refine ⟨rfl, rfl, ⟨?_, ?_⟩, ⟨?_, ?_⟩⟩
  · rw [stepParticle_pos_x]
    exact (rustRem_mem_Ico hx hw).1
  · rw [stepParticle_pos_x]
    exact (rustRem_mem_Ico hx hw).2
  · rw [stepParticle_pos_y]
    exact (rustRem_mem_Ico hy hh).1
  · rw [stepParticle_pos_y]
    exact (rustRem_mem_Ico hy hh).2

/-- Witness for the amended C9: after shrinking to 800 x 600, the particle
stranded at `x = 1000` is left in place by the resize handler, and the
next unpaused particle step (no black holes, `dt = 1`) wraps it to
`x = (1000 + 800) mod 800 = 200`, inside the new viewport. -/
theorem C9_resize_camera_only_witness :
    (handleWindowResize 800 600 ⟨400, 300⟩ []).1 = (⟨400, 300⟩ : Vec2) ∧
    (handleWindowResize 800 600 ⟨400, 300⟩ []).2 = ([] : List Particle) ∧
    (0 ≤ (stepParticle 800 600 1 []
        { pos := ⟨1000, 300⟩, velocity := ⟨0, 0⟩, mass := 1 }).pos.x ∧
      (stepParticle 800 600 1 []
        { pos := ⟨1000, 300⟩, velocity := ⟨0, 0⟩, mass := 1 }).pos.x < 800) ∧
    (0 ≤ (stepParticle 800 600 1 []
        { pos := ⟨1000, 300⟩, velocity := ⟨0, 0⟩, mass := 1 }).pos.y ∧
      (stepParticle 800 600 1 []
        { pos := ⟨1000, 300⟩, velocity := ⟨0, 0⟩, mass := 1 }).pos.y < 600) := by
  have h := C9_resize_camera_only 800 600 ⟨400, 300⟩ [] 800 600 1 []
      { pos := ⟨1000, 300⟩, velocity := ⟨0, 0⟩, mass := 1 }
      (by norm_num) (by norm_num)
      (by show (0:ℝ) ≤ 1000 + 1 * 0 + 800; norm_num)
      (by show (0:ℝ) ≤ 300 + 1 * 0 + 600; norm_num)
  refine ⟨?_, h.2.1, h.2.2.1, h.2.2.2⟩
  rw [h.1]
  norm_num

/-! ## C10 -/

theorem mergePairs_one (b : BlackHole) : mergePairs [b] = [] := by
  unfold mergePairs
  simp [List.range_succ]

theorem mergeBlackHoles_one (b : BlackHole) : mergeBlackHoles [b] = [b] := by
  unfold mergeBlackHoles
  rw [mergePairs_one]
  simp [List.range_succ]

/-- C10: the pause flag gates only the particle update.  For every frame,
the black-hole and wave components after a paused frame equal those after
the identical unpaused frame while the particles stay frozen; concretely,
during a paused frame two black holes within the merge threshold still
merge, and with the cursor in the window, ArrowUp held and the left mouse
button pressed, the selected black hole still moves to the cursor, gains
mass and has its event horizon recomputed. -/
theorem C10_pause_gates_only_particles (width height dt : ℝ) (cp : Bool)
    (sel : ℕ) (up down ml : Bool) (cursor : Vec2)
    (draws : List (List Draw)) (s : FrameState)
    (ps2 : List Particle) (ws2 : List Wave) (b b1 b2 : BlackHole)
    (hdist : (b1.pos - b2.pos).length < 30) :
    (stepFrame true width height dt cp sel up down ml cursor draws s).blackHoles =
      (stepFrame false width height dt cp sel up down ml cursor draws s).blackHoles ∧
    (stepFrame true width height dt cp sel up down ml cursor draws s).waves =
      (stepFrame false width height dt cp sel up down ml cursor draws s).waves ∧
    (stepFrame true width height dt cp sel up down ml cursor draws s).particles =
      s.particles ∧
    (stepFrame true width height dt false sel up down ml cursor draws
        ⟨ps2, [b1, b2], ws2⟩).blackHoles = [mergedBlackHole b1 b2] ∧
    (stepFrame true width height dt true 0 true false true cursor draws
        ⟨ps2, [b], ws2⟩).blackHoles =
      [{ pos := cursor, mass := b.mass + 1,
         eventHorizon := eventHorizonOf (b.mass + 1) }] := by
  refine ⟨rfl, rfl, ?_, ?_, ?_⟩
  · show updateParticles true width height dt s.blackHoles draws s.particles = s.particles
    exact updateParticles_paused width height dt s.blackHoles draws s.particles
  · show mergeBlackHoles
        (updateBlackHoles false sel up down ml cursor [b1, b2]) = [mergedBlackHole b1 b2]
    unfold updateBlackHoles
    simp only [Bool.false_eq_true, if_false]
    exact mergeBlackHoles_two b1 b2 hdist
  · show mergeBlackHoles
        (updateBlackHoles true 0 true false true cursor [b]) =
      [{ pos := cursor, mass := b.mass + 1,
         eventHorizon := eventHorizonOf (b.mass + 1) }]
    have hupd : updateBlackHoles true 0 true false true cursor [b] =
        [{ pos := cursor, mass := b.mass + 1,
           eventHorizon := eventHorizonOf (b.mass + 1) }] := by
      unfold updateBlackHoles adjustBlackHole adjustMass
      simp [List.mapIdx_cons, List.mapIdx_nil]
    rw [hupd, mergeBlackHoles_one]

/-- Witness for C10 at a concrete paused frame: an empty particle set, two
coincident black holes of masses 400 and 600, and a one-black-hole frame
with the cursor at `(5, 6)`. -/
theorem C10_pause_gates_only_particles_witness :
    (stepFrame true 800 600 1 false 0 false false false ⟨5, 6⟩ []
        ⟨[], [{ pos := ⟨0, 0⟩, mass := 400, eventHorizon := eventHorizonOf 400 },
              { pos := ⟨0, 0⟩, mass := 600, eventHorizon := eventHorizonOf 600 }],
          []⟩).blackHoles =
      [mergedBlackHole
        { pos := ⟨0, 0⟩, mass := 400, eventHorizon := eventHorizonOf 400 }
        { pos := ⟨0, 0⟩, mass := 600, eventHorizon := eventHorizonOf 600 }] ∧
    (stepFrame true 800 600 1 true 0 true false true ⟨5, 6⟩ []
        ⟨[], [{ pos := ⟨7, 8⟩, mass := 1000, eventHorizon := 15 }], []⟩).blackHoles =
      [{ pos := ⟨5, 6⟩, mass := (1000 : ℝ) + 1,
         eventHorizon := eventHorizonOf ((1000 : ℝ) + 1) }] := by
  have hd : Vec2.length ((⟨0, 0⟩ : Vec2) - ⟨0, 0⟩) < 30 := by
    rw [Vec2.sub_def, length_mk]
    rw [sqrt_eval (le_refl (0:ℝ)) (by norm_num)]
    norm_num
  have h := C10_pause_gates_only_particles 800 600 1 false 0 false false false
      ⟨5, 6⟩ []
      ⟨[], [{ pos := ⟨0, 0⟩, mass := 400, eventHorizon := eventHorizonOf 400 },
            { pos := ⟨0, 0⟩, mass := 600, eventHorizon := eventHorizonOf 600 }], []⟩
      [] [] { pos := ⟨7, 8⟩, mass := 1000, eventHorizon := 15 }
      { pos := ⟨0, 0⟩, mass := 400, eventHorizon := eventHorizonOf 400 }
      { pos := ⟨0, 0⟩, mass := 600, eventHorizon := eventHorizonOf 600 } hd
  exact ⟨h.2.2.2.1, h.2.2.2.2⟩

end BlackHoleSim
